import Mathlib

/-!
Shallow embedding of the content-storage and cascading-deletion core of the
docs.rs codebase (src/storage/database.rs, src/db/delete.rs, src/db/pool.rs),
with theorems checking the natural-language specification against it.

Paths are modelled as `List Char`, byte contents as `List Nat`, timestamps as
`Nat`.  Machine integers appear only through the explicit clamp to
`i32Max = 2^31 - 1` performed by `DatabaseBackend::get`.
-/

/-- A token of a SQL `LIKE` pattern: `%` (any run of characters), `_` (exactly
one character), or a literal character (either plain or backslash-escaped). -/
inductive Tok where
  | any : Tok
  | one : Tok
  | lit : Char → Tok
deriving DecidableEq, Repr

/-- Tokenizer worker; the flag records whether the previous character was an
unconsumed backslash escape. -/
def toToksAux : Bool → List Char → List Tok
  | _, [] => []
  | true, c :: p => Tok.lit c :: toToksAux false p
  | false, c :: p =>
    if c = '\\' then toToksAux true p
    else if c = '%' then Tok.any :: toToksAux false p
    else if c = '_' then Tok.one :: toToksAux false p
    else Tok.lit c :: toToksAux false p

/-- Tokenize a `LIKE` pattern as Postgres reads it: `%` and `_` are wildcards
and a backslash escapes the character after it. -/
def toToks (p : List Char) : List Tok := toToksAux false p

/-- All suffixes of a character list, longest first. -/
def sufs : List Char → List (List Char)
  | [] => [[]]
  | a :: s => (a :: s) :: sufs s

/-- Matching of a tokenized `LIKE` pattern against a string. -/
def tokMatch : List Tok → List Char → Bool
  | [], [] => true
  | [], _ :: _ => false
  | Tok.any :: p, s => (sufs s).any (fun s2 => tokMatch p s2)
  | Tok.one :: _, [] => false
  | Tok.one :: p, _ :: s => tokMatch p s
  | Tok.lit _ :: _, [] => false
  | Tok.lit c :: p, a :: s => decide (a = c) && tokMatch p s

/-- SQL `LIKE` matching over characters, as Postgres evaluates the patterns
built by `DatabaseStorageTransaction::delete_prefix` and
`delete_version_from_database`. -/
def likeMatch (p s : List Char) : Bool := tokMatch (toToks p) s

/-- The escaping performed by `delete_prefix`: `prefix.replace('%', "\\%")`.
Only the percent sign is escaped; underscore and backslash are left as is. -/
def escPercent : List Char → List Char
  | [] => []
  | c :: cs => if c = '%' then '\\' :: '%' :: escPercent cs else c :: escPercent cs

/-- Literal prefix test on character lists (the intended "exact-prefix match"
semantics of prefix deletion). -/
def isPre : List Char → List Char → Bool
  | [], _ => true
  | _ :: _, [] => false
  | c :: p, a :: s => decide (a = c) && isPre p s

/-- No backslash character in the list. -/
def noBackslash : List Char → Bool
  | [] => true
  | c :: cs => decide (c ≠ '\\') && noBackslash cs

/-- No underscore wildcard in the list. -/
def noUnderscore : List Char → Bool
  | [] => true
  | c :: cs => decide (c ≠ '_') && noUnderscore cs

/-- Modelled from the spec: the compression-code enumeration lives in
`src/storage/mod.rs`, which is outside the provided sources.  The spec
describes `compression` as "optional small integer code identifying the
encoding"; we model the one known algorithm with code 0.  Any other stored
code is unrecognized. -/
inductive CompressionAlgorithm where
  | zstd : CompressionAlgorithm
deriving DecidableEq, Repr

/-- The `alg as i32` cast used by `store_batch` when persisting a blob. -/
def CompressionAlgorithm.code : CompressionAlgorithm → Int
  | zstd => 0

/-- The `i.try_into()` conversion used by `DatabaseBackend::get` when reading
a stored compression code back; `none` models a code the implementation does
not recognize (in the source this makes `.expect(...)` panic). -/
def decodeCompression (i : Int) : Option CompressionAlgorithm :=
  if i = 0 then some CompressionAlgorithm.zstd else none

/-- Modelled from the spec: the `Blob` struct lives in `src/storage/mod.rs`,
outside the provided sources.  The spec gives its fields: path, mime, content,
optional compression, and an update timestamp. -/
structure Blob where
  path : List Char
  mime : String
  content : List Nat
  compression : Option CompressionAlgorithm
  date_updated : Nat
deriving DecidableEq, Repr

/-- One row of the relational backend's `files` table
(`path PK, mime, content, compression smallint NULL, date_updated`). -/
structure FileRow where
  path : List Char
  mime : String
  content : List Nat
  compression : Option Int
  date_updated : Nat
deriving DecidableEq, Repr

/-- The `files` table.  The primary key on `path` means a well-formed table
has at most one row per path (`pathsUnique` below). -/
abbrev FilesTable := List FileRow

/-- The `path` primary-key invariant of the `files` table. -/
def pathsUnique (t : FilesTable) : Prop :=
  List.Pairwise (fun a b => a.path ≠ b.path) t

/-- `std::i32::MAX`, the clamp applied to `max_size` by
`DatabaseBackend::get` before it is compared against `LENGTH(content)`. -/
def i32Max : Nat := 2 ^ 31 - 1

/-- The row written for a blob by `store_batch`'s INSERT: the listed columns
`(path, mime, content, compression)` come from the blob; `date_updated` is
filled by the table default on a fresh insert (the schema is outside the
provided sources; the spec states the timestamp is set on write) and is the
statement's `now`. -/
def rowOfBlob (b : Blob) (now : Nat) : FileRow :=
  ⟨b.path, b.mime, b.content, b.compression.map CompressionAlgorithm.code, now⟩

/-- One `INSERT ... ON CONFLICT (path) DO UPDATE SET mime = EXCLUDED.mime,
content = EXCLUDED.content, compression = EXCLUDED.compression` from
`DatabaseStorageTransaction::store_batch`.  On conflict only the three listed
columns are updated; `date_updated` keeps the existing row's value.  Under the
primary key there is at most one conflicting row, modelled by updating the
first occurrence. -/
def storeOne : FilesTable → Blob → Nat → FilesTable
  | [], b, now => [rowOfBlob b now]
  | r :: rs, b, now =>
    if r.path = b.path then
      ⟨b.path, b.mime, b.content, b.compression.map CompressionAlgorithm.code,
        r.date_updated⟩ :: rs
    else r :: storeOne rs b now

/-- `DatabaseStorageTransaction::store_batch`: each blob of the batch is
upserted in order (the per-blob `uploaded_files_total` metric increment is
not part of the table state). -/
def store_batch (t : FilesTable) (batch : List Blob) (now : Nat) : FilesTable :=
  batch.foldl (fun acc b => storeOne acc b now) t

/-- Outcome of `DatabaseBackend::get`.  `errSizeLimit` is the
`SizeLimitReached` error, `errNotFound` the `PathNotFoundError`, `panicked`
an aborted call (a failed `.expect`).  `errCorruptData` is the typed
corrupt-data error of the spec's error taxonomy; the implementation never
produces it. -/
inductive GetOutcome where
  | ok : Blob → GetOutcome
  | errNotFound : GetOutcome
  | errSizeLimit : GetOutcome
  | errCorruptData : GetOutcome
  | panicked : GetOutcome
deriving DecidableEq, Repr

/-- `DatabaseBackend::get(path, max_size)`: clamp `max_size` to `i32::MAX`,
fetch the row (content nulled out server-side when longer than the clamp),
report `PathNotFoundError` on a missing row and `SizeLimitReached` when the
stored length exceeds the clamp; then decode the compression code, where an
unrecognized code hits `.expect("invalid compression algorithm stored in
database")`. -/
def dbGet (t : FilesTable) (path : List Char) (max_size : Nat) : GetOutcome :=
  let maxSize := min max_size i32Max
  match t.find? (fun r => decide (r.path = path)) with
  | none => GetOutcome.errNotFound
  | some r =>
    if r.content.length > maxSize then GetOutcome.errSizeLimit
    else
      match r.compression with
      | none =>
        GetOutcome.ok ⟨r.path, r.mime, r.content, none, r.date_updated⟩
      | some i =>
        match decodeCompression i with
        | some alg =>
          GetOutcome.ok ⟨r.path, r.mime, r.content, some alg, r.date_updated⟩
        | none => GetOutcome.panicked

/-- `DatabaseBackend::exists(path)`. -/
def dbExists (t : FilesTable) (path : List Char) : Bool :=
  t.any (fun r => decide (r.path = path))

/-- `DatabaseStorageTransaction::delete_prefix`: delete every row whose path
matches the LIKE pattern `prefix.replace('%', "\\%") + "%"`. -/
def deletePrefix (t : FilesTable) (pre : List Char) : FilesTable :=
  t.filter (fun r => ! likeMatch (escPercent pre ++ ['%']) r.path)

/-- One row of the `releases` table, with the fields the deletion protocol
touches: primary key, owning crate, version string, release time. -/
structure Release where
  id : Int
  crate_id : Int
  version : List Char
  release_time : Nat
deriving DecidableEq, Repr

/-- One row of the `crates` table. -/
structure Crate where
  id : Int
  name : List Char
  latest_version_id : Option Int
deriving DecidableEq, Repr

/-- The relational catalog state touched by `src/db/delete.rs`.  Dependent
tables carry their foreign key into `releases` (or `crates`) plus an opaque
payload standing for the remaining columns. -/
structure DbState where
  crates : List Crate
  releases : List Release
  author_rels : List (Int × Nat)
  keyword_rels : List (Int × Nat)
  builds : List (Int × Nat)
  compression_rels : List (Int × Nat)
  doc_coverage : List (Int × Nat)
  owner_rels : List (Int × Nat)
  sandbox_overrides : List (List Char × Nat)
  files : FilesTable
deriving DecidableEq, Repr

/-- The five release-dependent tables of the hard-coded `METADATA` list. -/
inductive MetaTable where
  | author_rels | keyword_rels | builds | compression_rels | doc_coverage
deriving DecidableEq, Repr

/-- The `(table, column)` pairs of the `METADATA` constant, in source order. -/
def MetaTable.pair : MetaTable → String × String
  | author_rels => ("author_rels", "rid")
  | keyword_rels => ("keyword_rels", "rid")
  | builds => ("builds", "rid")
  | compression_rels => ("compression_rels", "release")
  | doc_coverage => ("doc_coverage", "release_id")

/-- The `METADATA` table list in the order the source iterates it. -/
def METADATA : List MetaTable :=
  [MetaTable.author_rels, MetaTable.keyword_rels, MetaTable.builds,
   MetaTable.compression_rels, MetaTable.doc_coverage]

def getMeta (s : DbState) : MetaTable → List (Int × Nat)
  | MetaTable.author_rels => s.author_rels
  | MetaTable.keyword_rels => s.keyword_rels
  | MetaTable.builds => s.builds
  | MetaTable.compression_rels => s.compression_rels
  | MetaTable.doc_coverage => s.doc_coverage

def setMeta (s : DbState) : MetaTable → List (Int × Nat) → DbState
  | MetaTable.author_rels, l => { s with author_rels := l }
  | MetaTable.keyword_rels, l => { s with keyword_rels := l }
  | MetaTable.builds, l => { s with builds := l }
  | MetaTable.compression_rels, l => { s with compression_rels := l }
  | MetaTable.doc_coverage, l => { s with doc_coverage := l }

/-- `STORAGE_PATHS_TO_DELETE`: the two storage areas whose per-crate or
per-version subdirectories are removed. -/
def STORAGE_PATHS_TO_DELETE : List (List Char) :=
  [['r','u','s','t','d','o','c'], ['s','o','u','r','c','e','s']]

/-- `SELECT id FROM releases WHERE crate_id = $1 AND version = $2`, the
subquery of the per-version dependent-table deletes. -/
def releaseIdsOfVersion (s : DbState) (cid : Int) (ver : List Char) : List Int :=
  (s.releases.filter
    (fun r => decide (r.crate_id = cid) && decide (r.version = ver))).map
    (fun r => r.id)

/-- `SELECT id FROM releases WHERE crate_id = $1`, the subquery of the
whole-crate dependent-table deletes. -/
def releaseIdsOfCrate (s : DbState) (cid : Int) : List Int :=
  (s.releases.filter (fun r => decide (r.crate_id = cid))).map (fun r => r.id)

def setLatest (s : DbState) (cid : Int) (v : Option Int) : DbState :=
  let f := fun (c : Crate) =>
    if c.id = cid then { c with latest_version_id := v } else c
  { s with crates := s.crates.map f }

/-- Maximum of a list of timestamps (`SELECT MAX(release_time) ...`); `none`
models SQL `NULL` on an empty selection. -/
def maxNat : List Nat → Option Nat
  | [] => none
  | a :: as =>
    match maxNat as with
    | none => some a
    | some m => some (max a m)

/-- The `UPDATE crates SET latest_version_id = (SELECT id FROM releases WHERE
release_time = (SELECT MAX(release_time) FROM releases WHERE crate_id = $1))
WHERE id = $1` statement of `delete_version_from_database`.  The outer
subquery carries no `crate_id` filter; as a scalar subquery it yields `NULL`
on zero rows and raises an error (`none` here) on more than one row. -/
def updateLatest (s : DbState) (cid : Int) : Option DbState :=
  match maxNat ((s.releases.filter (fun r => decide (r.crate_id = cid))).map
      (fun r => r.release_time)) with
  | none => some (setLatest s cid none)
  | some m =>
    match s.releases.filter (fun r => decide (r.release_time = m)) with
    | [] => some (setLatest s cid none)
    | [r] => some (setLatest s cid (some r.id))
    | _ :: _ :: _ => none

/-- One SQL statement of the two deletion transactions. -/
inductive TStmt where
  | delSandbox
  | delDepCrate (t : MetaTable)
  | delDepVersion (t : MetaTable)
  | delOwner
  | delReleasesOfCrate
  | delCrateRow
  | delReleaseVer
  | updateLatest
  | delFilesArea (area : List Char)
deriving DecidableEq, Repr

/-- Semantics of one statement against the current state; `none` is a
statement-level error (only `updateLatest` can fail intrinsically). -/
def execStmt (cid : Int) (name ver : List Char) (s : DbState) :
    TStmt → Option DbState
  | TStmt.delSandbox =>
    some { s with sandbox_overrides :=
      s.sandbox_overrides.filter (fun r => ! decide (r.1 = name)) }
  | TStmt.delDepCrate t =>
    some (setMeta s t ((getMeta s t).filter
      (fun r => ! decide (r.1 ∈ releaseIdsOfCrate s cid))))
  | TStmt.delDepVersion t =>
    some (setMeta s t ((getMeta s t).filter
      (fun r => ! decide (r.1 ∈ releaseIdsOfVersion s cid ver))))
  | TStmt.delOwner =>
    some { s with owner_rels := s.owner_rels.filter (fun r => ! decide (r.1 = cid)) }
  | TStmt.delReleasesOfCrate =>
    some { s with releases := s.releases.filter (fun r => ! decide (r.crate_id = cid)) }
  | TStmt.delCrateRow =>
    some { s with crates := s.crates.filter (fun c => ! decide (c.id = cid)) }
  | TStmt.delReleaseVer =>
    let keep := fun (r : Release) =>
      ! (decide (r.crate_id = cid) && decide (r.version = ver))
    some { s with releases := s.releases.filter keep }
  | TStmt.updateLatest => updateLatest s cid
  | TStmt.delFilesArea area =>
    let keep := fun (r : FileRow) =>
      ! likeMatch (area ++ '/' :: name ++ '/' :: ver ++ ['/', '%']) r.path
    some { s with files := s.files.filter keep }

/-- Run the statements of a transaction in order.  `fails i` injects a
backend failure at the i-th suspension point (statement execution); an error
abandons the transaction, which rolls back. -/
def runStmts (fails : Nat → Bool) (cid : Int) (name ver : List Char) :
    Nat → DbState → List TStmt → Option DbState
  | _, s, [] => some s
  | i, s, stmt :: rest =>
    if fails i then none
    else
      match execStmt cid name ver s stmt with
      | none => none
      | some s2 => runStmts fails cid name ver (i + 1) s2 rest

/-- A whole transaction: `begin` (index 0), the statements (indices 1..n),
`commit` (index n+1).  Any failure yields `none`: the transaction never
commits and the connection's state is unchanged. -/
def runTx (fails : Nat → Bool) (cid : Int) (name ver : List Char)
    (stmts : List TStmt) (s : DbState) : Option DbState :=
  if fails 0 then none
  else
    match runStmts fails cid name ver 1 s stmts with
    | none => none
    | some s2 => if fails (stmts.length + 1) then none else some s2

/-- The statement sequence of `delete_crate_from_database`, in source order:
sandbox overrides, the `METADATA` tables, owner relations, releases, crates. -/
def crateStmts : List TStmt :=
  TStmt.delSandbox :: METADATA.map TStmt.delDepCrate ++
    [TStmt.delOwner, TStmt.delReleasesOfCrate, TStmt.delCrateRow]

/-- The statement sequence of `delete_version_from_database`, in source
order: the `METADATA` tables, the release row, the latest-version update,
then the per-area `files` deletes. -/
def versionStmts : List TStmt :=
  METADATA.map TStmt.delDepVersion ++ [TStmt.delReleaseVer, TStmt.updateLatest] ++
    STORAGE_PATHS_TO_DELETE.map TStmt.delFilesArea

/-- Errors of the deletion protocol: `CrateDeletionError::MissingCrate` or a
propagated backend/transaction failure. -/
inductive DelError where
  | missingCrate (name : List Char)
  | backend
deriving DecidableEq, Repr

deriving instance DecidableEq for Except

/-- `get_id`: look up the crate id by name; a missing row is the
`MissingCrate` error (`none` here, turned into the error by the callers). -/
def get_id (s : DbState) (name : List Char) : Option Int :=
  (s.crates.find? (fun c => decide (c.name = name))).map (fun c => c.id)

/-- `delete_crate_from_database`: one transaction over `crateStmts`. -/
def delete_crate_from_database (s : DbState) (name : List Char) (cid : Int)
    (fails : Nat → Bool) : Option DbState :=
  runTx fails cid name [] crateStmts s

/-- `delete_version_from_database`: `get_id` first (outside the transaction),
then one transaction over `versionStmts`. -/
def delete_version_from_database (s : DbState) (name ver : List Char)
    (fails : Nat → Bool) : Except DelError DbState :=
  match get_id s name with
  | none => Except.error (DelError.missingCrate name)
  | some cid =>
    match runTx fails cid name ver versionStmts s with
    | none => Except.error DelError.backend
    | some s2 => Except.ok s2

/-- Modelled from the spec: the blob store behind `Storage::delete_prefix`
(`src/storage/mod.rs` is outside the provided sources).  The spec says prefix
deletion removes every stored blob whose path starts with the given literal
string; the store is modelled as the list of stored paths. -/
abbrev StorageSet := List (List Char)

/-- Modelled from the spec: `Storage::delete_prefix` removes the blobs whose
path has `pre` as literal prefix. -/
def storageDeletePrefix (st : StorageSet) (pre : List Char) : StorageSet :=
  st.filter (fun p => ! isPre pre p)

/-- `delete_crate`: crate lookup, the relational transaction, then — only
after a successful commit — one blob-store prefix deletion per storage area
(`"{}/{}/"`).  The result carries the final relational state and blob store;
on error both are unchanged. -/
def delete_crate (s : DbState) (st : StorageSet) (name : List Char)
    (fails : Nat → Bool) : Except DelError Unit × DbState × StorageSet :=
  match get_id s name with
  | none => (Except.error (DelError.missingCrate name), s, st)
  | some cid =>
    match delete_crate_from_database s name cid fails with
    | none => (Except.error DelError.backend, s, st)
    | some s2 =>
      (Except.ok (), s2,
        STORAGE_PATHS_TO_DELETE.foldl
          (fun acc area => storageDeletePrefix acc (area ++ '/' :: name ++ ['/'])) st)

/-- `delete_version`: the relational transaction, then — only after a
successful commit — one blob-store prefix deletion per storage area
(`"{}/{}/{}/"`). -/
def delete_version (s : DbState) (st : StorageSet) (name ver : List Char)
    (fails : Nat → Bool) : Except DelError Unit × DbState × StorageSet :=
  match delete_version_from_database s name ver fails with
  | Except.error e => (Except.error e, s, st)
  | Except.ok s2 =>
    (Except.ok (), s2,
      STORAGE_PATHS_TO_DELETE.foldl
        (fun acc area =>
          storageDeletePrefix acc (area ++ '/' :: name ++ '/' :: ver ++ ['/'])) st)

/-- The pool state visible to the utilization counters: the configured
maximum recorded at construction (`Pool { pool, metrics, max_size }`). -/
structure Pool where
  max_size : Nat
deriving DecidableEq, Repr

/-- Result of a counter call: a value, or an aborted call. -/
inductive CounterResult where
  | ok : Nat → CounterResult
  | panicked : CounterResult
deriving DecidableEq, Repr

/-- `Pool::used_connections`: its body evaluates `unimplemented!()` before
the subtraction, so every call aborts. -/
def Pool.used_connections (_p : Pool) : CounterResult := CounterResult.panicked

/-- `Pool::idle_connections`: its body is `unimplemented!()`. -/
def Pool.idle_connections (_p : Pool) : CounterResult := CounterResult.panicked

/-- `Pool::max_size`: returns the stored maximum. -/
def Pool.maxSize (p : Pool) : CounterResult := CounterResult.ok p.max_size

/-- A small concrete catalog used by witnesses: one crate `"a"` (id 1) with
releases `"1"` (id 11, time 1) and `"2"` (id 22, time 2), dependent rows in
every `METADATA` table, an owner row, a sandbox override, and stored files
under the version-level storage areas. -/
def sampleState : DbState where
  crates := [⟨1, ['a'], some 11⟩]
  releases := [⟨11, 1, ['1'], 1⟩, ⟨22, 1, ['2'], 2⟩]
  author_rels := [(11, 0), (22, 1)]
  keyword_rels := [(11, 2)]
  builds := [(11, 5), (22, 6)]
  compression_rels := [(11, 7)]
  doc_coverage := [(11, 8)]
  owner_rels := [(1, 0)]
  sandbox_overrides := [(['a'], 0)]
  files := [⟨['r','u','s','t','d','o','c','/','a','/','1','/','x'], "m", [1], none, 0⟩,
    ⟨['s','o','u','r','c','e','s','/','a','/','2','/','y'], "m", [2], none, 0⟩]

/-- Blob-store contents matching `sampleState`. -/
def sampleStorage : StorageSet :=
  [['r','u','s','t','d','o','c','/','a','/','1','/','x'],
   ['s','o','u','r','c','e','s','/','a','/','2','/','y']]

theorem nil_mem_sufs (s : List Char) : [] ∈ sufs s := by
  induction s with
  | nil => simp [sufs]
  | cons a s ih => simp [sufs, ih]

theorem mem_sufs_append (s1 s2 : List Char) : s2 ∈ sufs (s1 ++ s2) := by
  induction s1 with
  | nil =>
    cases s2 with
    | nil => simp [sufs]
    | cons a s => simp [sufs]
  | cons a s1 ih => simp [sufs, ih]

theorem tokMatch_any_all (s : List Char) : tokMatch [Tok.any] s = true := by
  have h0 : tokMatch [] [] = true := rfl
  simp only [tokMatch, List.any_eq_true]
  exact ⟨[], nil_mem_sufs s, h0⟩

theorem tokMatch_any_append {q : List Tok} {s2 : List Char} (s1 : List Char)
    (h : tokMatch q s2 = true) : tokMatch (Tok.any :: q) (s1 ++ s2) = true := by
  simp only [tokMatch, List.any_eq_true]
  exact ⟨s2, mem_sufs_append s1 s2, h⟩

/-- For a literal fragment containing no backslash, the tokenized pattern of
that fragment followed by pattern `q` matches `lit ++ s` whenever `q` matches
`s`: wildcards in the fragment only make the pattern more permissive. -/
theorem tokMatch_lit_append {lit q s : List Char} (hb : noBackslash lit = true)
    (h : tokMatch (toToks q) s = true) :
    tokMatch (toToks (lit ++ q)) (lit ++ s) = true := by
  induction lit generalizing s with
  | nil => simpa using h
  | cons c cs ih =>
    simp only [noBackslash, Bool.and_eq_true, decide_eq_true_eq] at hb
    have ihm := ih hb.2 h
    by_cases hpc : c = '%'
    · subst hpc
      have := tokMatch_any_append ['%'] ihm
      simpa [toToks, toToksAux] using this
    · by_cases huc : c = '_'
      · subst huc
        simpa [toToks, toToksAux, tokMatch] using ihm
      · simpa [toToks, toToksAux, tokMatch, hpc, hb.1, huc] using ihm

/-- Tokenizing the percent-escaped fragment turns every character of the
fragment into a literal token, provided the fragment contains no underscore
and no backslash. -/
theorem toToks_escPercent {pre : List Char} (hu : noUnderscore pre = true)
    (hb : noBackslash pre = true) (q : List Char) :
    toToks (escPercent pre ++ q) = pre.map Tok.lit ++ toToks q := by
  induction pre with
  | nil => simp [escPercent]
  | cons c cs ih =>
    simp only [noUnderscore, Bool.and_eq_true, decide_eq_true_eq] at hu
    simp only [noBackslash, Bool.and_eq_true, decide_eq_true_eq] at hb
    by_cases hpc : c = '%'
    · subst hpc
      simpa [escPercent, toToks, toToksAux] using ih hu.2 hb.2
    · simpa [escPercent, toToks, toToksAux, hpc, hu.1, hb.1] using ih hu.2 hb.2

/-- A pattern made of literal tokens followed by a single `%` matches exactly
the strings that have the corresponding fragment as a literal prefix. -/
theorem tokMatch_litToks_any (pre s : List Char) :
    tokMatch (pre.map Tok.lit ++ [Tok.any]) s = isPre pre s := by
  induction pre generalizing s with
  | nil => simp [isPre, tokMatch_any_all]
  | cons c cs ih =>
    cases s with
    | nil => simp [isPre, tokMatch]
    | cons a s2 => simp [isPre, tokMatch, ih]

/-- The pattern `escPercent pre ++ "%"` built by `delete_prefix` matches
exactly the strings having `pre` as a literal prefix, provided `pre` contains
no underscore and no backslash. -/
theorem likeMatch_esc_eq_isPre {pre : List Char} (hu : noUnderscore pre = true)
    (hb : noBackslash pre = true) (s : List Char) :
    likeMatch (escPercent pre ++ ['%']) s = isPre pre s := by
  rw [likeMatch, toToks_escPercent hu hb]
  have : toToks ['%'] = [Tok.any] := rfl
  rw [this]
  exact tokMatch_litToks_any pre s

theorem exists_of_isPre {pre s : List Char} (h : isPre pre s = true) :
    ∃ s2, s = pre ++ s2 := by
  induction pre generalizing s with
  | nil => exact ⟨s, rfl⟩
  | cons c cs ih =>
    cases s with
    | nil => simp [isPre] at h
    | cons a s' =>
      simp only [isPre, Bool.and_eq_true, decide_eq_true_eq] at h
      obtain ⟨s2, rfl⟩ := ih h.2
      exact ⟨s2, by simp [h.1]⟩

/-- Forward inclusion for an unescaped backslash-free fragment: any string with
the fragment as literal prefix matches the pattern `fragment ++ "%"`. -/
theorem likeMatch_of_isPre {pre s : List Char} (hb : noBackslash pre = true)
    (h : isPre pre s = true) : likeMatch (pre ++ ['%']) s = true := by
  obtain ⟨s2, rfl⟩ := exists_of_isPre h
  have h1 : tokMatch (toToks ['%']) s2 = true := tokMatch_any_all s2
  exact tokMatch_lit_append hb h1

theorem decode_code (a : CompressionAlgorithm) :
    decodeCompression (CompressionAlgorithm.code a) = some a := by
  cases a
  rfl

theorem find?_storeOne_none {t : FilesTable} {b : Blob} {now : Nat}
    (h : t.find? (fun r => decide (r.path = b.path)) = none) :
    (storeOne t b now).find? (fun r => decide (r.path = b.path)) =
      some (rowOfBlob b now) := by
  induction t with
  | nil => simp [storeOne, rowOfBlob, List.find?]
  | cons r rs ih =>
    by_cases hp : r.path = b.path
    · rw [List.find?_cons_of_pos _ (by simp [hp])] at h
      exact absurd h (by simp)
    · rw [List.find?_cons_of_neg _ (by simp [hp])] at h
      simp only [storeOne, hp, if_false]
      rw [List.find?_cons_of_neg _ (by simp [hp])]
      exact ih h

theorem find?_storeOne_some {t : FilesTable} {b : Blob} {now : Nat} {r0 : FileRow}
    (h : t.find? (fun r => decide (r.path = b.path)) = some r0) :
    (storeOne t b now).find? (fun r => decide (r.path = b.path)) =
      some ⟨b.path, b.mime, b.content,
        b.compression.map CompressionAlgorithm.code, r0.date_updated⟩ := by
  induction t with
  | nil => simp [List.find?] at h
  | cons r rs ih =>
    by_cases hp : r.path = b.path
    · have hr : r0 = r := by
        rw [List.find?_cons_of_pos _ (by simp [hp])] at h
        exact (Option.some.inj h).symm
      subst hr
      simp only [storeOne, hp, if_true]
      rw [List.find?_cons_of_pos _ (by simp)]
    · rw [List.find?_cons_of_neg _ (by simp [hp])] at h
      simp only [storeOne, hp, if_false]
      rw [List.find?_cons_of_neg _ (by simp [hp])]
      exact ih h

theorem mem_storeOne_path {t : FilesTable} {b : Blob} {now : Nat} {x : FileRow}
    (hx : x ∈ storeOne t b now) : x.path = b.path ∨ x ∈ t := by
  induction t with
  | nil =>
    simp [storeOne, rowOfBlob] at hx
    subst hx
    left; rfl
  | cons r rs ih =>
    by_cases hp : r.path = b.path
    · simp only [storeOne, hp, if_true, List.mem_cons] at hx
      rcases hx with hx | hx
      · subst hx; left; rfl
      · right; exact List.mem_cons_of_mem _ hx
    · simp only [storeOne, hp, if_false, List.mem_cons] at hx
      rcases hx with hx | hx
      · subst hx; right; exact List.mem_cons_self _ _
      · rcases ih hx with h | h
        · left; exact h
        · right; exact List.mem_cons_of_mem _ h

theorem pathsUnique_storeOne {t : FilesTable} (hu : pathsUnique t)
    (b : Blob) (now : Nat) : pathsUnique (storeOne t b now) := by
  induction t with
  | nil => simp [storeOne, pathsUnique]
  | cons r rs ih =>
    rw [pathsUnique, List.pairwise_cons] at hu
    by_cases hp : r.path = b.path
    · simp only [storeOne, hp, if_true]
      rw [pathsUnique, List.pairwise_cons]
      exact ⟨fun y hy => by simpa using hp ▸ hu.1 y hy, hu.2⟩
    · simp only [storeOne, hp, if_false]
      rw [pathsUnique, List.pairwise_cons]
      refine ⟨fun y hy => ?_, ih hu.2⟩
      rcases mem_storeOne_path hy with h | h
      · rw [h]; exact hp
      · exact hu.1 y h

theorem filter_storeOne_present {t : FilesTable} {b : Blob} {now : Nat}
    (hu : pathsUnique t) (hp : ∃ r0 ∈ t, r0.path = b.path) :
    ∃ d, (storeOne t b now).filter (fun r => decide (r.path = b.path)) =
      [⟨b.path, b.mime, b.content,
        b.compression.map CompressionAlgorithm.code, d⟩] := by
  induction t with
  | nil => simp at hp
  | cons r rs ih =>
    rw [pathsUnique, List.pairwise_cons] at hu
    by_cases hq : r.path = b.path
    · refine ⟨r.date_updated, ?_⟩
      simp only [storeOne, hq, if_true]
      rw [List.filter_cons]
      simp only [decide_eq_true_eq, if_pos rfl]
      have : rs.filter (fun x => decide (x.path = b.path)) = [] := by
        rw [List.filter_eq_nil_iff]
        intro a ha
        simp only [decide_eq_true_eq]
        intro hab
        exact (hu.1 a ha) (hq.symm ▸ hab.symm ▸ rfl)
      simp [this]
    · obtain ⟨r0, hr0m, hr0p⟩ := hp
      rcases List.mem_cons.1 hr0m with h | h
      · exact absurd (h ▸ hr0p) hq
      · obtain ⟨d, hd⟩ := ih hu.2 ⟨r0, h, hr0p⟩
        refine ⟨d, ?_⟩
        simp only [storeOne, hq, if_false]
        rw [List.filter_cons]
        simp only [decide_eq_true_eq, hq, if_false]
        exact hd

/-- C8: the code-bug theorem.  The spec promises working pool-utilization
counters that "return a value and never abort"; in the code
`Pool::used_connections` and `Pool::idle_connections` are `unimplemented!()`
and abort on every call, while `Pool::max_size` does return the configured
maximum. -/
theorem pool_counters_unimplemented (p : Pool) :
    Pool.used_connections p = CounterResult.panicked ∧
      Pool.idle_connections p = CounterResult.panicked ∧
      Pool.maxSize p = CounterResult.ok p.max_size :=
  ⟨rfl, rfl, rfl⟩

/-- C2: for a stored blob of size `S`, `get` returns the size-limit error
whenever `max_size < S` (the comparison happens against the server-side
clamped bound, so no content accompanies the error), and returns the full
stored content whenever `max_size ≥ S` — the latter under the relational
backend's standing guarantee that a stored `BYTEA` fits in `i32::MAX`
(`S ≤ i32Max`) and the stored compression code is recognized. -/
theorem get_size_limit_enforced (t : FilesTable) (p : List Char) (r : FileRow)
    (S m : Nat) (hf : t.find? (fun x => decide (x.path = p)) = some r)
    (hS : r.content.length = S)
    (hc : r.compression = none ∨
      ∃ i a, r.compression = some i ∧ decodeCompression i = some a) :
    (m < S → dbGet t p m = GetOutcome.errSizeLimit) ∧
    (S ≤ m → S ≤ i32Max →
      ∃ b, dbGet t p m = GetOutcome.ok b ∧ b.content = r.content ∧
        b.content.length = S) := by
  constructor
  · intro hm
    have hbig : r.content.length > min m i32Max :=
      hS ▸ lt_of_le_of_lt (min_le_left m i32Max) hm
    simp [dbGet, hf, hbig]
  · intro hm hi
    have hfit : ¬ r.content.length > min m i32Max := by
      rw [hS]
      exact not_lt.2 (le_min hm hi)
    rcases hc with hnone | ⟨i, a, hsome, hdec⟩
    · exact ⟨⟨r.path, r.mime, r.content, none, r.date_updated⟩,
        by simp [dbGet, hf, hfit, hnone], rfl, hS⟩
    · exact ⟨⟨r.path, r.mime, r.content, some a, r.date_updated⟩,
        by simp [dbGet, hf, hfit, hsome, hdec], rfl, hS⟩

/-- Witness for C2 at a stored blob of size 3: `get` with `max_size = 2`
reports the size limit and with `max_size = 3` returns the content. -/
theorem get_size_limit_enforced_witness :
    dbGet [⟨['p'], "m", [1, 2, 3], none, 0⟩] ['p'] 2 = GetOutcome.errSizeLimit ∧
    ∃ b, dbGet [⟨['p'], "m", [1, 2, 3], none, 0⟩] ['p'] 3 = GetOutcome.ok b ∧
      b.content = [1, 2, 3] ∧ b.content.length = 3 := by
  constructor
  · exact (get_size_limit_enforced _ ['p'] ⟨['p'], "m", [1, 2, 3], none, 0⟩ 3 2
      (by decide) (by decide) (Or.inl (by decide))).1 (by decide)
  · exact (get_size_limit_enforced _ ['p'] ⟨['p'], "m", [1, 2, 3], none, 0⟩ 3 3
      (by decide) (by decide) (Or.inl (by decide))).2 (by decide) (by decide)

/-- C4 (amended): a stored compression code the implementation does not
recognize makes `get` abort (the `.expect` panics) — it is never silently
treated as uncompressed, but no typed corrupt-data error is returned
either. -/
theorem get_unrecognized_compression_panics (t : FilesTable) (p : List Char)
    (r : FileRow) (i : Int) (m : Nat)
    (hf : t.find? (fun x => decide (x.path = p)) = some r)
    (hcomp : r.compression = some i) (hdec : decodeCompression i = none)
    (hm : r.content.length ≤ m) (hi : r.content.length ≤ i32Max) :
    dbGet t p m = GetOutcome.panicked := by
  have hfit : ¬ r.content.length > min m i32Max := not_lt.2 (le_min hm hi)
  simp [dbGet, hf, hfit, hcomp, hdec]

/-- Witness for C4's amended theorem at a row with stored code 99. -/
theorem get_unrecognized_compression_panics_witness :
    decodeCompression 99 = none ∧
      dbGet [⟨['p'], "m", [1], some 99, 0⟩] ['p'] 5 = GetOutcome.panicked :=
  ⟨by decide,
    get_unrecognized_compression_panics _ ['p'] ⟨['p'], "m", [1], some 99, 0⟩
      99 5 (by decide) (by decide) (by decide) (by decide) (by decide)⟩

/-- Counterexample to C4 as stated: at a row whose stored compression code is
99, `get` aborts; it does not return the typed corrupt-data error the claim
promises. -/
theorem get_unrecognized_compression_no_typed_result :
    dbGet [⟨['p'], "m", [1], some 99, 0⟩] ['p'] 5 = GetOutcome.panicked ∧
      dbGet [⟨['p'], "m", [1], some 99, 0⟩] ['p'] 5 ≠ GetOutcome.errCorruptData := by
  constructor
  · decide
  · decide

/-- C3 (amended): `delete_prefix` deletes exactly the rows whose path has the
given prefix literally, provided the prefix contains no underscore and no
backslash — only `%` is escaped by the implementation. -/
theorem delete_prefix_literal_when_no_wildcards (t : FilesTable)
    (pre : List Char) (hu : noUnderscore pre = true)
    (hb : noBackslash pre = true) :
    deletePrefix t pre = t.filter (fun r => ! isPre pre r.path) := by
  unfold deletePrefix
  apply List.filter_congr
  intro x _
  rw [likeMatch_esc_eq_isPre hu hb]

/-- Witness for C3's amended theorem: the spec's own example — a blob at
`"50%old"` is kept by `delete_prefix "50"` exactly as the literal-prefix
filter dictates. -/
theorem delete_prefix_literal_witness :
    noUnderscore ['5', '0'] = true ∧ noBackslash ['5', '0'] = true ∧
      deletePrefix [⟨['5', '0', '%', 'o', 'l', 'd'], "m", [], none, 0⟩]
          ['5', '0'] =
        List.filter (fun r => ! isPre ['5', '0'] r.path)
          [⟨['5', '0', '%', 'o', 'l', 'd'], "m", [], none, 0⟩] :=
  ⟨by decide, by decide,
    delete_prefix_literal_when_no_wildcards _ ['5', '0'] (by decide) (by decide)⟩

/-- Counterexample to C3 as stated: the underscore wildcard is NOT escaped,
so `delete_prefix "a_"` deletes the blob stored at `"ax"` even though `"ax"`
does not start with the literal prefix `"a_"`. -/
theorem delete_prefix_underscore_counterexample :
    deletePrefix [⟨['a', 'x'], "m", [], none, 0⟩] ['a', '_'] = [] ∧
      isPre ['a', '_'] ['a', 'x'] = false := by
  constructor
  · decide
  · decide

theorem dbGet_after_storeOne (t : FilesTable) (b : Blob) (now m : Nat)
    (hm : b.content.length ≤ m) (hi : b.content.length ≤ i32Max) :
    ∃ d, dbGet (storeOne t b now) b.path m =
      GetOutcome.ok ⟨b.path, b.mime, b.content, b.compression, d⟩ := by
  have hfit : ¬ b.content.length > min m i32Max := not_lt.2 (le_min hm hi)
  cases hfind : t.find? (fun r => decide (r.path = b.path)) with
  | none =>
    refine ⟨now, ?_⟩
    rw [dbGet]
    rw [find?_storeOne_none hfind]
    cases hcomp : b.compression with
    | none => simp [rowOfBlob, hcomp, hfit]
    | some a => simp [rowOfBlob, hcomp, hfit, decode_code]
  | some r0 =>
    refine ⟨r0.date_updated, ?_⟩
    rw [dbGet]
    rw [find?_storeOne_some hfind]
    cases hcomp : b.compression with
    | none => simp [hcomp, hfit]
    | some a => simp [hcomp, hfit, decode_code]

/-- C5: round-trip and wholesale upsert.  Storing one blob and reading it
back with a sufficient size bound returns its content, mime, and compression;
storing twice at one path leaves exactly one row at that path carrying all of
the latest write's mime, content, and compression. -/
theorem store_roundtrip_upsert (t : FilesTable) (b b1 b2 : Blob)
    (now now1 now2 m : Nat) (hu : pathsUnique t)
    (hm : b.content.length ≤ m) (hi : b.content.length ≤ i32Max)
    (hpath : b2.path = b1.path) :
    (∃ d, dbGet (store_batch t [b] now) b.path m =
      GetOutcome.ok ⟨b.path, b.mime, b.content, b.compression, d⟩) ∧
    (∃ d, (store_batch (store_batch t [b1] now1) [b2] now2).filter
        (fun r => decide (r.path = b1.path)) =
      [⟨b1.path, b2.mime, b2.content,
        b2.compression.map CompressionAlgorithm.code, d⟩]) := by
  constructor
  · rw [show store_batch t [b] now = storeOne t b now from rfl]
    exact dbGet_after_storeOne t b now m hm hi
  · rw [show store_batch (store_batch t [b1] now1) [b2] now2 =
      storeOne (storeOne t b1 now1) b2 now2 from rfl]
    have hu1 : pathsUnique (storeOne t b1 now1) := pathsUnique_storeOne hu b1 now1
    have hpresent : ∃ r0 ∈ storeOne t b1 now1, r0.path = b2.path := by
      cases hfind : t.find? (fun r => decide (r.path = b1.path)) with
      | none =>
        have h1 := @find?_storeOne_none _ _ now1 hfind
        exact ⟨rowOfBlob b1 now1, List.mem_of_find?_eq_some h1, hpath.symm⟩
      | some r0 =>
        have h1 := @find?_storeOne_some _ _ now1 _ hfind
        exact ⟨_, List.mem_of_find?_eq_some h1, hpath.symm⟩
    obtain ⟨d, hd⟩ := filter_storeOne_present hu1 hpresent
    refine ⟨d, ?_⟩
    rw [← hpath]
    exact hd

/-- Witness for C5 at concrete blobs sharing one path. -/
theorem store_roundtrip_upsert_witness :
    (∃ d, dbGet (store_batch [] [⟨['p'], "m", [1, 2], some CompressionAlgorithm.zstd, 0⟩] 1)
        ['p'] 2 = GetOutcome.ok
          ⟨['p'], "m", [1, 2], some CompressionAlgorithm.zstd, d⟩) ∧
    (∃ d, (store_batch (store_batch []
          [⟨['p'], "m", [1, 2], some CompressionAlgorithm.zstd, 0⟩] 1)
        [⟨['p'], "n", [9], none, 0⟩] 2).filter
        (fun r => decide (r.path = ['p'])) = [⟨['p'], "n", [9], none, d⟩]) := by
  have h := store_roundtrip_upsert []
    ⟨['p'], "m", [1, 2], some CompressionAlgorithm.zstd, 0⟩
    ⟨['p'], "m", [1, 2], some CompressionAlgorithm.zstd, 0⟩
    ⟨['p'], "n", [9], none, 0⟩ 1 1 2 2
    (by simp [pathsUnique]) (by decide) (by decide) (by decide)
  exact h

/-- C7 (amended): a fresh insert through `store_batch` stores the statement
time as `date_updated` (the table default), but an overwrite of an existing
path leaves the row's previous `date_updated` in place — the
`ON CONFLICT ... DO UPDATE` clause sets only mime, content, and
compression. -/
theorem store_batch_date_updated (t : FilesTable) (b : Blob) (now : Nat) :
    (t.find? (fun r => decide (r.path = b.path)) = none →
      (store_batch t [b] now).find? (fun r => decide (r.path = b.path)) =
        some (rowOfBlob b now)) ∧
    (∀ r0, t.find? (fun r => decide (r.path = b.path)) = some r0 →
      (store_batch t [b] now).find? (fun r => decide (r.path = b.path)) =
        some ⟨b.path, b.mime, b.content,
          b.compression.map CompressionAlgorithm.code, r0.date_updated⟩) := by
  constructor
  · intro h
    rw [show store_batch t [b] now = storeOne t b now from rfl]
    exact find?_storeOne_none h
  · intro r0 h
    rw [show store_batch t [b] now = storeOne t b now from rfl]
    exact find?_storeOne_some h

/-- Witness for C7's amended theorem: a fresh insert at time 1, then an
overwrite at time 2 that keeps `date_updated = 1`. -/
theorem store_batch_date_updated_witness :
    (([] : FilesTable).find? (fun r => decide (r.path = ['p'])) = none ∧
      (store_batch [] [⟨['p'], "m", [1], none, 0⟩] 1).find?
          (fun r => decide (r.path = ['p'])) =
        some (rowOfBlob ⟨['p'], "m", [1], none, 0⟩ 1)) ∧
    ((store_batch [] [⟨['p'], "m", [1], none, 0⟩] 1).find?
        (fun r => decide (r.path = ['p'])) = some ⟨['p'], "m", [1], none, 1⟩ ∧
      (store_batch (store_batch [] [⟨['p'], "m", [1], none, 0⟩] 1)
          [⟨['p'], "n", [2], none, 0⟩] 2).find?
          (fun r => decide (r.path = ['p'])) =
        some ⟨['p'], "n", [2], none, 1⟩) := by
  refine ⟨⟨by decide, ?_⟩, by decide, ?_⟩
  · exact (store_batch_date_updated [] ⟨['p'], "m", [1], none, 0⟩ 1).1 (by decide)
  · exact (store_batch_date_updated (store_batch [] [⟨['p'], "m", [1], none, 0⟩] 1)
      ⟨['p'], "n", [2], none, 0⟩ 2).2 ⟨['p'], "m", [1], none, 1⟩ (by decide)

/-- Counterexample to C7 as stated: the second write (at time 2) of the same
path leaves the stored `date_updated` at 1 — the timestamp of the overwrite
is NOT recorded, so the stored value does not reflect the latest write. -/
theorem store_batch_overwrite_keeps_date_updated :
    store_batch (store_batch [] [⟨['p'], "m", [1], none, 0⟩] 1)
        [⟨['p'], "n", [2], none, 0⟩] 2 =
      [⟨['p'], "n", [2], none, 1⟩] ∧ (1 : Nat) ≠ 2 := by
  constructor
  · decide
  · decide

/-- The pure effect of a statement list when no backend failure occurs; a
successful `runTx` commits exactly this result. -/
def execList (cid : Int) (name ver : List Char) :
    DbState → List TStmt → Option DbState
  | s, [] => some s
  | s, stmt :: rest =>
    match execStmt cid name ver s stmt with
    | none => none
    | some s2 => execList cid name ver s2 rest

theorem runStmts_eq_execList {fails : Nat → Bool} {cid : Int}
    {name ver : List Char} {stmts : List TStmt} {i : Nat} {s s2 : DbState}
    (h : runStmts fails cid name ver i s stmts = some s2) :
    execList cid name ver s stmts = some s2 := by
  induction stmts generalizing i s with
  | nil => simpa [runStmts, execList] using h
  | cons stmt rest ih =>
    rw [runStmts] at h
    rw [execList]
    split at h
    · exact Option.noConfusion h
    · split at h
      · exact Option.noConfusion h
      · exact ih h

theorem runTx_ok {fails : Nat → Bool} {cid : Int} {name ver : List Char}
    {stmts : List TStmt} {s s2 : DbState}
    (h : runTx fails cid name ver stmts s = some s2) :
    execList cid name ver s stmts = some s2 := by
  rw [runTx] at h
  split at h
  · exact Option.noConfusion h
  · split at h
    · exact Option.noConfusion h
    · rename_i s' heq
      split at h
      · exact Option.noConfusion h
      · exact (Option.some.inj h) ▸ runStmts_eq_execList heq

theorem maxNat_eq_none_iff (l : List Nat) : maxNat l = none ↔ l = [] := by
  cases l with
  | nil => simp [maxNat]
  | cons a as =>
    simp only [maxNat]
    split
    · simp
    · simp

theorem maxNat_mem {l : List Nat} {m : Nat} (h : maxNat l = some m) : m ∈ l := by
  induction l generalizing m with
  | nil => exact Option.noConfusion h
  | cons a as ih =>
    rw [maxNat] at h
    split at h
    · simp [Option.some.inj h]
    · rename_i m' hm'
      have := Option.some.inj h
      rcases max_choice a m' with hc | hc
      · rw [← this, hc]
        simp
      · rw [← this, hc]
        exact List.mem_cons_of_mem _ (ih hm')

theorem maxNat_ub {l : List Nat} {x m : Nat} (hx : x ∈ l)
    (h : maxNat l = some m) : x ≤ m := by
  induction l generalizing m with
  | nil => simp at hx
  | cons a as ih =>
    rw [maxNat] at h
    split at h
    · rename_i hnone
      have has : as = [] := (maxNat_eq_none_iff as).1 hnone
      subst has
      have hxa : x = a := by simpa using hx
      simp [hxa, ← Option.some.inj h]
    · rename_i m' hm'
      have hmax := Option.some.inj h
      rcases List.mem_cons.1 hx with hxa | hxas
      · exact hxa ▸ hmax ▸ le_max_left a m'
      · exact le_trans (ih hxas hm') (hmax ▸ le_max_right a m')

theorem updateLatest_shape {s : DbState} {cid : Int} {s' : DbState}
    (h : updateLatest s cid = some s') : ∃ v, s' = setLatest s cid v := by
  rw [updateLatest] at h
  split at h
  · exact ⟨none, (Option.some.inj h).symm⟩
  · split at h
    · exact ⟨none, (Option.some.inj h).symm⟩
    · rename_i r _
      exact ⟨some r.id, (Option.some.inj h).symm⟩
    · exact Option.noConfusion h

theorem updateLatest_post {s : DbState} {cid : Int} {s' : DbState}
    (h : updateLatest s cid = some s')
    (hne : s.releases.filter (fun r => decide (r.crate_id = cid)) ≠ []) :
    ∃ rmax, rmax ∈ s.releases ∧ rmax.crate_id = cid ∧
      (∀ c ∈ s'.crates, c.id = cid → c.latest_version_id = some rmax.id) ∧
      (∀ r2 ∈ s.releases, r2.crate_id = cid → r2.release_time ≤ rmax.release_time) := by
  rw [updateLatest] at h
  split at h
  · rename_i hmax
    exact absurd (List.map_eq_nil_iff.1 ((maxNat_eq_none_iff _).1 hmax)) hne
  · rename_i m hmax
    have hm_mem := maxNat_mem hmax
    obtain ⟨rmax, hrmax_f, hrmax_t⟩ := List.mem_map.1 hm_mem
    have hrmax_rel : rmax ∈ s.releases := (List.mem_filter.1 hrmax_f).1
    have hrmax_cid : rmax.crate_id = cid := by
      have h2 := (List.mem_filter.1 hrmax_f).2
      simpa using h2
    have hrmax_cand : rmax ∈ s.releases.filter
        (fun r => decide (r.release_time = m)) :=
      List.mem_filter.2 ⟨hrmax_rel, by simp [hrmax_t]⟩
    split at h
    · rename_i hc
      rw [hc] at hrmax_cand
      simp at hrmax_cand
    · rename_i r hc
      have hs' : s' = setLatest s cid (some r.id) := (Option.some.inj h).symm
      have hr_eq : rmax = r := by
        rw [hc] at hrmax_cand
        simpa using hrmax_cand
      refine ⟨rmax, hrmax_rel, hrmax_cid, ?_, ?_⟩
      · intro c hcmem hcid
        rw [hs'] at hcmem
        simp only [setLatest, List.mem_map] at hcmem
        obtain ⟨c0, _, hceq⟩ := hcmem
        by_cases h0 : c0.id = cid
        · rw [← hceq, hr_eq]
          simp [h0]
        · rw [← hceq] at hcid
          simp [h0] at hcid
      · intro r2 hr2 hr2cid
        have hmem : r2.release_time ∈ (s.releases.filter
            (fun r => decide (r.crate_id = cid))).map (fun r => r.release_time) :=
          List.mem_map.2 ⟨r2, List.mem_filter.2 ⟨hr2, by simp [hr2cid]⟩, rfl⟩
        exact hrmax_t ▸ maxNat_ub hmem hmax
    · exact Option.noConfusion h

theorem execList_crate_spec {cid : Int} {name : List Char} {s s2 : DbState}
    (h : execList cid name [] s crateStmts = some s2) :
    (∀ c ∈ s2.crates, c.id ≠ cid) ∧
    (∀ r ∈ s2.releases, r.crate_id ≠ cid) ∧
    (∀ o ∈ s2.owner_rels, o.1 ≠ cid) ∧
    (∀ x ∈ s2.sandbox_overrides, x.1 ≠ name) ∧
    (∀ t : MetaTable, ∀ row ∈ getMeta s2 t, row.1 ∉ releaseIdsOfCrate s cid) := by
  simp only [crateStmts, METADATA, List.map, List.cons_append, List.nil_append,
    execList, execStmt, setMeta, getMeta, releaseIdsOfCrate] at h
  replace h := Option.some.inj h
  subst h
  refine ⟨?_, ?_, ?_, ?_, ?_⟩
  · intro c hc
    simp only [List.mem_filter] at hc
    simpa using hc.2
  · intro r hr
    simp only [List.mem_filter] at hr
    simpa using hr.2
  · intro o ho
    simp only [List.mem_filter] at ho
    simpa using ho.2
  · intro x hx
    simp only [List.mem_filter] at hx
    simpa using hx.2
  · intro t row hrow
    simp only [releaseIdsOfCrate]
    cases t <;>
      (simp only [getMeta, List.mem_filter] at hrow
       simpa using hrow.2)

theorem execList_version_spec {cid : Int} {name ver : List Char} {s s2 : DbState}
    (h : execList cid name ver s versionStmts = some s2) :
    s2.releases = s.releases.filter
      (fun r => ! (decide (r.crate_id = cid) && decide (r.version = ver))) ∧
    (∀ row ∈ s2.files, ∀ area ∈ STORAGE_PATHS_TO_DELETE,
      likeMatch (area ++ '/' :: name ++ '/' :: ver ++ ['/', '%']) row.path = false) ∧
    (∀ t : MetaTable, ∀ row ∈ getMeta s2 t, row.1 ∉ releaseIdsOfVersion s cid ver) ∧
    (s2.releases.filter (fun r => decide (r.crate_id = cid)) ≠ [] →
      ∃ rmax, rmax ∈ s2.releases ∧ rmax.crate_id = cid ∧
        (∀ c ∈ s2.crates, c.id = cid → c.latest_version_id = some rmax.id) ∧
        (∀ r2 ∈ s2.releases, r2.crate_id = cid → r2.release_time ≤ rmax.release_time)) := by
  simp only [versionStmts, METADATA, STORAGE_PATHS_TO_DELETE, List.map,
    List.cons_append, List.nil_append, List.append_assoc,
    execList, execStmt, setMeta, getMeta, releaseIdsOfVersion] at h
  split at h
  · exact Option.noConfusion h
  · rename_i s7 hupd
    replace h := Option.some.inj h
    subst h
    obtain ⟨v, hs7⟩ := updateLatest_shape hupd
    subst hs7
    refine ⟨rfl, ?_, ?_, ?_⟩
    · intro row hrow area harea
      dsimp only at hrow
      simp only [List.mem_filter] at hrow
      simp only [STORAGE_PATHS_TO_DELETE, List.mem_cons, List.not_mem_nil, or_false] at harea
      rcases harea with rfl | rfl
      · have h1 := hrow.1.2
        simpa [setLatest] using h1
      · have h2 := hrow.2
        simpa [setLatest] using h2
    · intro t row hrow
      simp only [releaseIdsOfVersion]
      cases t <;>
        (simp only [getMeta, setLatest, List.mem_filter] at hrow
         simpa using hrow.2)
    · intro hne
      obtain ⟨rmax, hmem, hcid2, hcrates, hub⟩ := updateLatest_post hupd hne
      exact ⟨rmax, hmem, hcid2, hcrates, hub⟩

theorem noBackslash_append (l1 l2 : List Char) :
    noBackslash (l1 ++ l2) = (noBackslash l1 && noBackslash l2) := by
  induction l1 with
  | nil => simp [noBackslash]
  | cons c cs ih => simp [noBackslash, ih, Bool.and_assoc]

/-- C6: deleting a package name with no matching `crates` row reports the
`MissingCrate` error — for `delete_crate` directly and for `delete_version`
through its `get_id` lookup — and leaves the catalog and the blob store
untouched. -/
theorem delete_missing_crate_reported (s : DbState) (st : StorageSet)
    (name ver : List Char) (fails : Nat → Bool)
    (h : ∀ c ∈ s.crates, c.name ≠ name) :
    delete_crate s st name fails =
      (Except.error (DelError.missingCrate name), s, st) ∧
    delete_version s st name ver fails =
      (Except.error (DelError.missingCrate name), s, st) := by
  have hid : get_id s name = none := by
    simp only [get_id, Option.map_eq_none']
    rw [List.find?_eq_none]
    intro c hc
    simp [h c hc]
  constructor
  · simp [delete_crate, hid]
  · simp [delete_version, delete_version_from_database, hid]

/-- Witness for C6 at a catalog whose only crate is named `"b"`. -/
theorem delete_missing_crate_reported_witness :
    (∀ c ∈ (DbState.mk [⟨1, ['b'], none⟩] [] [] [] [] [] [] [] [] []).crates,
      c.name ≠ ['a']) ∧
    delete_crate (DbState.mk [⟨1, ['b'], none⟩] [] [] [] [] [] [] [] [] [])
        [] ['a'] (fun _ => false) =
      (Except.error (DelError.missingCrate ['a']),
        DbState.mk [⟨1, ['b'], none⟩] [] [] [] [] [] [] [] [] [], []) :=
  ⟨by decide,
    (delete_missing_crate_reported
      (DbState.mk [⟨1, ['b'], none⟩] [] [] [] [] [] [] [] [] [])
      [] ['a'] ['x'] (fun _ => false) (by decide)).1⟩

/-- C1: the metadata phase of both deletions is one relational transaction
whose statement order deletes the dependent tables before the parent
release/crate rows; if any statement (or begin/commit) fails, the result is
an error and the connection's state and the blob store are exactly as before
(nothing removed, blob-prefix deletion never attempted); on success the
dependent rows and parent rows of the target are gone. -/
theorem cascading_deletion_atomic (s : DbState) (st : StorageSet)
    (name ver : List Char) (fails : Nat → Bool) :
    (∀ e, (delete_crate s st name fails).1 = Except.error e →
      (delete_crate s st name fails).2.1 = s ∧
      (delete_crate s st name fails).2.2 = st) ∧
    (∀ e, (delete_version s st name ver fails).1 = Except.error e →
      (delete_version s st name ver fails).2.1 = s ∧
      (delete_version s st name ver fails).2.2 = st) ∧
    (METADATA.all (fun t =>
      decide (List.indexOf (TStmt.delDepCrate t) crateStmts <
        List.indexOf TStmt.delReleasesOfCrate crateStmts) &&
      decide (List.indexOf TStmt.delReleasesOfCrate crateStmts <
        List.indexOf TStmt.delCrateRow crateStmts) &&
      decide (List.indexOf (TStmt.delDepVersion t) versionStmts <
        List.indexOf TStmt.delReleaseVer versionStmts)) = true) ∧
    (∀ cid s2 st2, delete_crate s st name fails = (Except.ok (), s2, st2) →
      get_id s name = some cid →
      (∀ c ∈ s2.crates, c.id ≠ cid) ∧ (∀ r ∈ s2.releases, r.crate_id ≠ cid) ∧
      (∀ o ∈ s2.owner_rels, o.1 ≠ cid) ∧
      (∀ x ∈ s2.sandbox_overrides, x.1 ≠ name) ∧
      (∀ t : MetaTable, ∀ row ∈ getMeta s2 t, row.1 ∉ releaseIdsOfCrate s cid)) ∧
    (∀ cid s2 st2, delete_version s st name ver fails = (Except.ok (), s2, st2) →
      get_id s name = some cid →
      (∀ r ∈ s2.releases, ¬ (r.crate_id = cid ∧ r.version = ver)) ∧
      (∀ t : MetaTable, ∀ row ∈ getMeta s2 t,
        row.1 ∉ releaseIdsOfVersion s cid ver)) := by
  refine ⟨?_, ?_, ?_, ?_, ?_⟩
  · intro e he
    cases hid : get_id s name with
    | none => simp [delete_crate, hid]
    | some cid =>
      cases hdb : delete_crate_from_database s name cid fails with
      | none => simp [delete_crate, hid, hdb]
      | some s3 => simp [delete_crate, hid, hdb] at he
  · intro e he
    cases hid : get_id s name with
    | none => simp [delete_version, delete_version_from_database, hid]
    | some cid =>
      cases htx : runTx fails cid name ver versionStmts s with
      | none => simp [delete_version, delete_version_from_database, hid, htx]
      | some s3 => simp [delete_version, delete_version_from_database, hid, htx] at he
  · decide
  · intro cid s2 st2 hok hid
    rw [delete_crate] at hok
    rw [hid] at hok
    dsimp only at hok
    cases hdb : delete_crate_from_database s name cid fails with
    | none => rw [hdb] at hok; simp at hok
    | some s3 =>
      rw [hdb] at hok
      simp only [Prod.mk.injEq] at hok
      obtain ⟨-, hs2, -⟩ := hok
      subst hs2
      exact execList_crate_spec (runTx_ok hdb)
  · intro cid s2 st2 hok hid
    rw [delete_version, delete_version_from_database] at hok
    rw [hid] at hok
    dsimp only at hok
    cases htx : runTx fails cid name ver versionStmts s with
    | none => rw [htx] at hok; simp at hok
    | some s3 =>
      rw [htx] at hok
      simp only [Prod.mk.injEq] at hok
      obtain ⟨-, hs2, -⟩ := hok
      subst hs2
      obtain ⟨hrel, -, hmeta, -⟩ := execList_version_spec (runTx_ok htx)
      refine ⟨?_, hmeta⟩
      intro r hr
      rw [hrel] at hr
      simp only [List.mem_filter] at hr
      have h2 := hr.2
      simp only [Bool.not_eq_true', Bool.and_eq_false_iff, decide_eq_false_iff_not] at h2
      intro hcon
      rcases h2 with h2 | h2
      · exact h2 hcon.1
      · exact h2 hcon.2

/-- Witness for C1: with an injected failure at statement index 3, both
deletions leave the catalog and blob store untouched; with no failure,
whole-crate deletion leaves no dependent row referencing the deleted
releases. -/
theorem cascading_deletion_atomic_witness :
    ((delete_crate sampleState sampleStorage ['a'] (fun i => decide (i = 3))).2.1 =
        sampleState ∧
     (delete_crate sampleState sampleStorage ['a'] (fun i => decide (i = 3))).2.2 =
        sampleStorage) ∧
    ((delete_version sampleState sampleStorage ['a'] ['1']
        (fun i => decide (i = 3))).2.1 = sampleState ∧
     (delete_version sampleState sampleStorage ['a'] ['1']
        (fun i => decide (i = 3))).2.2 = sampleStorage) ∧
    (∀ t : MetaTable,
      ∀ row ∈ getMeta (delete_crate sampleState sampleStorage ['a']
        (fun _ => false)).2.1 t,
      row.1 ∉ releaseIdsOfCrate sampleState 1) :=
  ⟨(cascading_deletion_atomic sampleState sampleStorage ['a'] ['1']
      (fun i => decide (i = 3))).1 DelError.backend (by decide),
   (cascading_deletion_atomic sampleState sampleStorage ['a'] ['1']
      (fun i => decide (i = 3))).2.1 DelError.backend (by decide),
   ((cascading_deletion_atomic sampleState sampleStorage ['a'] ['1']
      (fun _ => false)).2.2.2.1 1
      (delete_crate sampleState sampleStorage ['a'] (fun _ => false)).2.1
      (delete_crate sampleState sampleStorage ['a'] (fun _ => false)).2.2
      (by decide) (by decide)).2.2.2.2⟩

/-- C10: within `delete_version`'s single relational transaction every
`files` row under `rustdoc/<name>/<version>/` or `sources/<name>/<version>/`
is deleted together with the version's metadata (so on a failed transaction
the file rows — like everything else — are untouched), and the blob-store
prefix deletions for exactly those two prefixes run only after the
transaction commits.  The prefix hypotheses `noBackslash` reflect that the
unescaped SQL pattern treats a backslash as an escape character. -/
theorem delete_version_files_and_blob_phase (s : DbState) (st : StorageSet)
    (name ver : List Char) (fails : Nat → Bool)
    (hnb : noBackslash name = true) (hvb : noBackslash ver = true) :
    (∀ e, (delete_version s st name ver fails).1 = Except.error e →
      (delete_version s st name ver fails).2.1.files = s.files ∧
      (delete_version s st name ver fails).2.2 = st) ∧
    (∀ s2 st2, delete_version s st name ver fails = (Except.ok (), s2, st2) →
      (∀ row ∈ s2.files, ∀ area ∈ STORAGE_PATHS_TO_DELETE,
        isPre (area ++ '/' :: name ++ '/' :: ver ++ ['/']) row.path = false) ∧
      st2 = storageDeletePrefix (storageDeletePrefix st
          (['r','u','s','t','d','o','c'] ++ '/' :: name ++ '/' :: ver ++ ['/']))
          (['s','o','u','r','c','e','s'] ++ '/' :: name ++ '/' :: ver ++ ['/'])) := by
  constructor
  · intro e he
    cases hid : get_id s name with
    | none => simp [delete_version, delete_version_from_database, hid]
    | some cid =>
      cases htx : runTx fails cid name ver versionStmts s with
      | none => simp [delete_version, delete_version_from_database, hid, htx]
      | some s3 =>
        simp [delete_version, delete_version_from_database, hid, htx] at he
  · intro s2 st2 hok
    rw [delete_version, delete_version_from_database] at hok
    cases hid : get_id s name with
    | none => rw [hid] at hok; simp at hok
    | some cid =>
      rw [hid] at hok
      dsimp only at hok
      cases htx : runTx fails cid name ver versionStmts s with
      | none => rw [htx] at hok; simp at hok
      | some s3 =>
        rw [htx] at hok
        simp only [Prod.mk.injEq] at hok
        obtain ⟨-, hs2, hst2⟩ := hok
        subst hs2
        obtain ⟨-, hfiles, -, -⟩ := execList_version_spec (runTx_ok htx)
        constructor
        · intro row hrow area harea
          by_contra hip
          rw [Bool.not_eq_false] at hip
          have hpre : noBackslash (area ++ '/' :: name ++ '/' :: ver ++ ['/']) = true := by
            have harea2 : noBackslash area = true := by
              simp only [STORAGE_PATHS_TO_DELETE, List.mem_cons,
                List.not_mem_nil, or_false] at harea
              rcases harea with rfl | rfl
              · decide
              · decide
            simp [noBackslash_append, noBackslash, harea2, hnb, hvb]
          have hlike := likeMatch_of_isPre hpre hip
          have hpat : (area ++ '/' :: name ++ '/' :: ver ++ ['/']) ++ ['%'] =
              area ++ '/' :: name ++ '/' :: ver ++ ['/', '%'] := by
            simp
          rw [hpat] at hlike
          rw [hfiles row hrow area harea] at hlike
          exact Bool.noConfusion hlike
        · rw [← hst2]
          rfl

/-- Witness for C10: with a failure injected at statement index 1 the file
rows and the blob store are untouched. -/
theorem delete_version_files_and_blob_phase_witness :
    noBackslash ['a'] = true ∧ noBackslash ['1'] = true ∧
    ((delete_version sampleState sampleStorage ['a'] ['1']
        (fun i => decide (i = 1))).2.1.files = sampleState.files ∧
     (delete_version sampleState sampleStorage ['a'] ['1']
        (fun i => decide (i = 1))).2.2 = sampleStorage) :=
  ⟨by decide, by decide,
    (delete_version_files_and_blob_phase sampleState sampleStorage ['a'] ['1']
        (fun i => decide (i = 1)) (by decide) (by decide)).1
      DelError.backend (by decide)⟩

/-- C9: when `delete_version` succeeds and the crate still has at least one
remaining release, the crate's `latest_version_id` points at a remaining
release of that crate whose `release_time` is maximal among the crate's
remaining releases. -/
theorem latest_version_pointer_after_delete (s : DbState) (st : StorageSet)
    (name ver : List Char) (fails : Nat → Bool) (cid : Int) (s2 : DbState)
    (st2 : StorageSet)
    (hok : delete_version s st name ver fails = (Except.ok (), s2, st2))
    (hid : get_id s name = some cid)
    (hrem : s2.releases.filter (fun r => decide (r.crate_id = cid)) ≠ []) :
    ∃ rmax, rmax ∈ s2.releases ∧ rmax.crate_id = cid ∧
      (∀ c ∈ s2.crates, c.id = cid → c.latest_version_id = some rmax.id) ∧
      (∀ r2 ∈ s2.releases, r2.crate_id = cid →
        r2.release_time ≤ rmax.release_time) := by
  rw [delete_version, delete_version_from_database] at hok
  rw [hid] at hok
  dsimp only at hok
  cases htx : runTx fails cid name ver versionStmts s with
  | none => rw [htx] at hok; simp at hok
  | some s3 =>
    rw [htx] at hok
    simp only [Prod.mk.injEq] at hok
    obtain ⟨-, hs2, -⟩ := hok
    subst hs2
    obtain ⟨-, -, -, hptr⟩ := execList_version_spec (runTx_ok htx)
    exact hptr hrem

/-- Witness for C9: the spec's end-to-end scenario on `sampleState` — after
deleting version `"1"` of crate `"a"`, the pointer resolves to the remaining
release `"2"` (and concretely `latest_version_id = some 22`). -/
theorem latest_version_pointer_after_delete_witness :
    (∃ rmax, rmax ∈ (delete_version sampleState sampleStorage ['a'] ['1']
        (fun _ => false)).2.1.releases ∧ rmax.crate_id = 1 ∧
      (∀ c ∈ (delete_version sampleState sampleStorage ['a'] ['1']
          (fun _ => false)).2.1.crates,
        c.id = 1 → c.latest_version_id = some rmax.id) ∧
      (∀ r2 ∈ (delete_version sampleState sampleStorage ['a'] ['1']
          (fun _ => false)).2.1.releases,
        r2.crate_id = 1 → r2.release_time ≤ rmax.release_time)) ∧
    (delete_version sampleState sampleStorage ['a'] ['1']
        (fun _ => false)).2.1.crates = [⟨1, ['a'], some 22⟩] :=
  ⟨latest_version_pointer_after_delete sampleState sampleStorage ['a'] ['1']
      (fun _ => false) 1
      (delete_version sampleState sampleStorage ['a'] ['1'] (fun _ => false)).2.1
      (delete_version sampleState sampleStorage ['a'] ['1'] (fun _ => false)).2.2
      (by decide) (by decide) (by decide),
    by decide⟩
